import Mathlib

/-!
# Verification of the shared mutable doubly-linked deque (`src/fourth.rs`)

Shallow embedding of `List<T>` built from `Rc<RefCell<Node<T>>>` cells.
Each `Rc` allocation is addressed by a natural-number id; the store of live
allocations is an association list from ids to node values.  `Rc` strong
counts are recovered by counting the links (`head`, `tail`, and every node's
`next`/`prev` field) that reference an id, so `Rc::try_unwrap` can be modelled
faithfully inside `pop_front`/`pop_back`.  Fallible steps (a dangling link, or
a failing `Rc::try_unwrap(..).ok().unwrap()`) are modelled with `Except Unit`,
where `.error ()` stands for a runtime panic.
-/

namespace Fourth

/-- `Node<T>` from fourth.rs: one element plus optional links to the
successor (`next`) and the predecessor (`prev`), each link being the id of a
shared allocation. -/
structure Node (α : Type) where
  elem : α
  next : Option Nat
  prev : Option Nat

/-- The store of live `Rc<RefCell<Node<T>>>` allocations, keyed by id. -/
abbrev Heap (α : Type) := List (Nat × Node α)

/-- Look up the allocation with id `i` (first matching entry). -/
def aget {β : Type} (h : List (Nat × β)) (i : Nat) : Option β :=
  match h with
  | [] => none
  | (j, n) :: t => if j = i then some n else aget t i

/-- Mutate the allocation with id `i` in place (models a write through
`RefCell::borrow_mut` on that cell). -/
def amodify {β : Type} (h : List (Nat × β)) (i : Nat) (f : β → β) : List (Nat × β) :=
  match h with
  | [] => []
  | (j, n) :: t => (j, if j = i then f n else n) :: amodify t i f

/-- Drop the allocation with id `i` (models the deallocation performed when
the last `Rc` for that cell is consumed). -/
def aremove {β : Type} (h : List (Nat × β)) (i : Nat) : List (Nat × β) :=
  match h with
  | [] => []
  | (j, n) :: t => if j = i then aremove t i else (j, n) :: aremove t i

/-- The ids of all live allocations. -/
def keysOf {β : Type} (h : List (Nat × β)) : List Nat := h.map Prod.fst

/-- `List<T>` from fourth.rs: optional links to the head and tail nodes.
`heap` is the store of live allocations and `nextId` the next fresh id; both
are bookkeeping for the shallow embedding of the `Rc` allocator. -/
structure ListState (α : Type) where
  heap : Heap α
  nextId : Nat
  head : Option Nat
  tail : Option Nat

/-- `List::new()`: both links absent, no allocations. -/
def new {α : Type} : ListState α :=
  { heap := [], nextId := 0, head := none, tail := none }

/-- `List::push_front` (fourth.rs lines 40-55). -/
def push_front {α : Type} (s : ListState α) (elem : α) : ListState α :=
  let newId := s.nextId
  match s.head with
  | some old_head =>
      { heap := (newId, { elem := elem, next := some old_head, prev := none }) ::
          amodify s.heap old_head (fun n => { n with prev := some newId }),
        nextId := newId + 1,
        head := some newId,
        tail := s.tail }
  | none =>
      { heap := (newId, { elem := elem, next := none, prev := none }) :: s.heap,
        nextId := newId + 1,
        head := some newId,
        tail := some newId }

/-- `List::push_back` (fourth.rs lines 57-72). -/
def push_back {α : Type} (s : ListState α) (elem : α) : ListState α :=
  let newId := s.nextId
  match s.tail with
  | some old_tail =>
      { heap := (newId, { elem := elem, next := none, prev := some old_tail }) ::
          amodify s.heap old_tail (fun n => { n with next := some newId }),
        nextId := newId + 1,
        head := s.head,
        tail := some newId }
  | none =>
      { heap := (newId, { elem := elem, next := none, prev := none }) :: s.heap,
        nextId := newId + 1,
        head := some newId,
        tail := some newId }

/-- 1 if the link `l` references id `i`, else 0. -/
def linkCount (l : Option Nat) (i : Nat) : Nat :=
  if l = some i then 1 else 0

/-- Number of node-field links (`next`/`prev`) in the store referencing `i`. -/
def heapLinkCount {α : Type} (h : Heap α) (i : Nat) : Nat :=
  match h with
  | [] => 0
  | (_, n) :: t => linkCount n.next i + linkCount n.prev i + heapLinkCount t i

/-- Number of structural `Rc` clones of the cell `i` held in the state: the
`head`/`tail` slots of the list plus every node's `next`/`prev` field.  The
strong count of the `Rc` is this number plus one for each live local binding. -/
def refCount {α : Type} (s : ListState α) (i : Nat) : Nat :=
  linkCount s.head i + linkCount s.tail i + heapLinkCount s.heap i

/-- `List::pop_front` (fourth.rs lines 74-96).  `.error ()` models a panic:
either a dangling head link (impossible in Rust's types) or a failing
`Rc::try_unwrap(old_head).ok().unwrap()`, which succeeds precisely when the
local `old_head` binding is the only remaining strong reference, i.e. when no
structural link still references the detached node. -/
def pop_front {α : Type} (s : ListState α) : Except Unit (Option α × ListState α) :=
  match s.head with
  | none => .ok (none, s)
  | some oldId =>
    match aget s.heap oldId with
    | none => .error ()
    | some old_head =>
      let s1 : ListState α :=
        { s with head := none,
                 heap := amodify s.heap oldId (fun n => { n with next := none }) }
      let s2 : ListState α :=
        match old_head.next with
        | some newId =>
            { s1 with heap := amodify s1.heap newId (fun n => { n with prev := none }),
                      head := some newId }
        | none => { s1 with tail := none }
      if refCount s2 oldId = 0 then
        .ok (some old_head.elem, { s2 with heap := aremove s2.heap oldId })
      else .error ()

/-- `List::pop_back` (fourth.rs lines 98-115), symmetric to `pop_front`. -/
def pop_back {α : Type} (s : ListState α) : Except Unit (Option α × ListState α) :=
  match s.tail with
  | none => .ok (none, s)
  | some oldId =>
    match aget s.heap oldId with
    | none => .error ()
    | some old_tail =>
      let s1 : ListState α :=
        { s with tail := none,
                 heap := amodify s.heap oldId (fun n => { n with prev := none }) }
      let s2 : ListState α :=
        match old_tail.prev with
        | some newId =>
            { s1 with heap := amodify s1.heap newId (fun n => { n with next := none }),
                      tail := some newId }
        | none => { s1 with head := none }
      if refCount s2 oldId = 0 then
        .ok (some old_tail.elem, { s2 with heap := aremove s2.heap oldId })
      else .error ()

/-- `List::peek_front` (fourth.rs lines 116-120): value seen through the
`Ref<T>` view of the head element, or `none` on an empty list. -/
def peek_front {α : Type} (s : ListState α) : Option α :=
  s.head.bind (fun i => (aget s.heap i).map (fun n => n.elem))

/-- `List::peek_back` (fourth.rs lines 122-126). -/
def peek_back {α : Type} (s : ListState α) : Option α :=
  s.tail.bind (fun i => (aget s.heap i).map (fun n => n.elem))

/-- `List::peek_front_mut` (fourth.rs lines 128-132): value seen through the
`RefMut<T>` view of the head element, or `none` on an empty list. -/
def peek_front_mut {α : Type} (s : ListState α) : Option α :=
  s.head.bind (fun i => (aget s.heap i).map (fun n => n.elem))

/-- `List::peek_back_mut` (fourth.rs lines 134-138). -/
def peek_back_mut {α : Type} (s : ListState α) : Option α :=
  s.tail.bind (fun i => (aget s.heap i).map (fun n => n.elem))

/-- Assigning `v` through the `RefMut<T>` returned by `peek_front_mut`:
`*list.peek_front_mut().unwrap() = v`.  On an empty list `peek_front_mut`
returns `None` and no write happens. -/
def write_front {α : Type} (s : ListState α) (v : α) : ListState α :=
  match s.head with
  | none => s
  | some i => { s with heap := amodify s.heap i (fun n => { n with elem := v }) }

/-- Assigning `v` through the `RefMut<T>` returned by `peek_back_mut`. -/
def write_back {α : Type} (s : ListState α) (v : α) : ListState α :=
  match s.tail with
  | none => s
  | some i => { s with heap := amodify s.heap i (fun n => { n with elem := v }) }

/-- `peek_front` in state-passing form: it borrows the list by `&self`, so it
returns the view together with the list unchanged. -/
def peek_front_st {α : Type} (s : ListState α) : Option α × ListState α :=
  (peek_front s, s)

/-- `peek_back` in state-passing form. -/
def peek_back_st {α : Type} (s : ListState α) : Option α × ListState α :=
  (peek_back s, s)

/-- `IntoIter<T>` (fourth.rs line 157): a consumed list. -/
structure IntoIter (α : Type) where
  list : ListState α

/-- `List::into_iter` (fourth.rs lines 140-142). -/
def into_iter {α : Type} (s : ListState α) : IntoIter α :=
  ⟨s⟩

/-- `Iterator::next` for `IntoIter` (fourth.rs lines 159-164): one `pop_front`
on the wrapped list. -/
def IntoIter.next {α : Type} (it : IntoIter α) : Except Unit (Option α × IntoIter α) :=
  (pop_front it.list).map (fun r => (r.1, ⟨r.2⟩))

/-- `DoubleEndedIterator::next_back` for `IntoIter` (fourth.rs lines 166-170):
one `pop_back` on the wrapped list. -/
def IntoIter.next_back {α : Type} (it : IntoIter α) : Except Unit (Option α × IntoIter α) :=
  (pop_back it.list).map (fun r => (r.1, ⟨r.2⟩))

/-- `Drop for List` (fourth.rs lines 145-149): `while pop_front().is_some()`,
with explicit fuel so the loop is a total function.  Returns the number of
successful pops together with the final state; the loop stops as soon as
`pop_front` yields `None` (or faults, which never happens on reachable
states). -/
def dropPops {α : Type} (fuel : Nat) (s : ListState α) : Nat × ListState α :=
  match fuel with
  | 0 => (0, s)
  | fuel + 1 =>
    match pop_front s with
    | .ok (some _, s1) =>
        let r := dropPops fuel s1
        (r.1 + 1, r.2)
    | _ => (0, s)

/-- The head id of `l`, or `q` if `l` is empty. -/
def headOr (l : List Nat) (q : Option Nat) : Option Nat :=
  match l with
  | [] => q
  | b :: _ => some b

/-- The last id of `l`, or `p` if `l` is empty. -/
def lastOr (l : List Nat) (p : Option Nat) : Option Nat :=
  match l.getLast? with
  | some w => some w
  | none => p

/-- `chainSeg h f g p l q`: the ids `l` form a consecutive doubly-linked
segment in store `h`, following field `f` forward and field `g` backward; the
`g`-link of the first node is `p`, the `f`-link of the last node is `q`, and
every adjacent pair agrees bidirectionally.  With `f = next`, `g = prev`,
`p = q = none` this is exactly the structural invariant of the deque. -/
def chainSeg {α : Type} (h : Heap α) (f g : Node α → Option Nat) :
    Option Nat → List Nat → Option Nat → Prop
  | _, [], _ => True
  | p, a :: t, q =>
    match aget h a with
    | none => False
    | some n => g n = p ∧ f n = headOr t q ∧ chainSeg h f g (some a) t q

instance chainSegDecidable {α : Type} (h : Heap α) (f g : Node α → Option Nat) :
    (p : Option Nat) → (l : List Nat) → (q : Option Nat) → Decidable (chainSeg h f g p l q)
  | _, [], _ => isTrue trivial
  | p, a :: t, q =>
    match hm : aget h a with
    | none => isFalse (by simp [chainSeg, hm])
    | some n =>
      have : Decidable (chainSeg h f g (some a) t q) := chainSegDecidable h f g (some a) t q
      decidable_of_iff (g n = p ∧ f n = headOr t q ∧ chainSeg h f g (some a) t q)
        (by simp [chainSeg, hm])

/-- Full structural invariant of a list state: `ids` enumerates the nodes from
head to tail; ids are distinct and fresh below `nextId`; the store holds
exactly those nodes; `head`/`tail` reference the first/last of them (absent on
the empty list); and the nodes form a doubly-linked chain whose head `prev`
and tail `next` are absent. -/
def chainInv {α : Type} (s : ListState α) (ids : List Nat) : Prop :=
  ids.Nodup ∧
  (∀ i ∈ ids, i < s.nextId) ∧
  (keysOf s.heap).Perm ids ∧
  s.head = ids.head? ∧
  s.tail = ids.getLast? ∧
  chainSeg s.heap Node.next Node.prev none ids none

instance chainInvDecidable {α : Type} (s : ListState α) (ids : List Nat) :
    Decidable (chainInv s ids) := by
  unfold chainInv
  infer_instance

/-- Walk the store from link `start`, following field `f`, for at most `fuel`
steps; returns the ids visited. -/
def walkBy {α : Type} (h : Heap α) (f : Node α → Option Nat) :
    Nat → Option Nat → List Nat
  | 0, _ => []
  | _ + 1, none => []
  | fuel + 1, some i => i :: walkBy h f fuel ((aget h i).bind f)

/-- Element values of the given ids, in order. -/
def elemsAt {α : Type} (h : Heap α) (ids : List Nat) : List α :=
  ids.filterMap (fun i => (aget h i).map (fun n => n.elem))

/-- The abstract element sequence of a list state: walk head-to-tail via
`next` and read each element. -/
def elems {α : Type} (s : ListState α) : List α :=
  elemsAt s.heap (walkBy s.heap Node.next s.heap.length s.head)

/-- States reachable from `List::new()` by the four public mutating
operations. -/
inductive Reachable {α : Type} : ListState α → Prop where
  | base : Reachable new
  | pushFront (s : ListState α) (x : α) : Reachable s → Reachable (push_front s x)
  | pushBack (s : ListState α) (x : α) : Reachable s → Reachable (push_back s x)
  | popFront (s : ListState α) (v : Option α) (s' : ListState α) :
      Reachable s → pop_front s = .ok (v, s') → Reachable s'
  | popBack (s : ListState α) (v : Option α) (s' : ListState α) :
      Reachable s → pop_back s = .ok (v, s') → Reachable s'

/-- The dynamic borrow flag of a `RefCell`: free, shared by `n ≥ 1` readers
(`Ref` guards alive), or exclusively borrowed (a `RefMut` guard alive). -/
inductive BorrowFlag where
  | free
  | reading (n : Nat)
  | writing

/-- `RefCell::borrow`, as used by `peek_front`/`peek_back`: acquiring a shared
borrow succeeds (returning the updated flag) unless an exclusive borrow is
outstanding, in which case it panics (`none`). -/
def tryBorrow : BorrowFlag → Option BorrowFlag
  | .free => some (.reading 1)
  | .reading n => some (.reading (n + 1))
  | .writing => none

/-- `RefCell::borrow_mut`, as used by `peek_front_mut`/`peek_back_mut`:
acquiring an exclusive borrow succeeds only when no borrow of any kind is
outstanding; otherwise it panics (`none`). -/
def tryBorrowMut : BorrowFlag → Option BorrowFlag
  | .free => some .writing
  | _ => none

/-- A node of the deque together with the dynamic borrow flag of its
`RefCell`, for reasoning about outstanding `Ref`/`RefMut` views. -/
structure CellNode (α : Type) where
  flag : BorrowFlag
  elem : α
  next : Option Nat
  prev : Option Nat

/-- A list state whose nodes carry their `RefCell` borrow flags. -/
structure CellState (α : Type) where
  heap : List (Nat × CellNode α)
  head : Option Nat
  tail : Option Nat

/-- `List::peek_front` with the dynamic borrow check made explicit:
`.ok none` is the ordinary empty-list result, `.ok (some ..)` returns the
viewed element together with the state whose head flag records the new
shared borrow, and `.error ()` is the panic raised by `RefCell::borrow` at
the moment of the violating call. -/
def peek_front_chk {α : Type} (s : CellState α) : Except Unit (Option (α × CellState α)) :=
  match s.head with
  | none => .ok none
  | some i =>
    match aget s.heap i with
    | none => .error ()
    | some n =>
      match tryBorrow n.flag with
      | none => .error ()
      | some fl =>
          .ok (some (n.elem, { s with heap := amodify s.heap i (fun m => { m with flag := fl }) }))

/-- `List::peek_back` with the dynamic borrow check made explicit. -/
def peek_back_chk {α : Type} (s : CellState α) : Except Unit (Option (α × CellState α)) :=
  match s.tail with
  | none => .ok none
  | some i =>
    match aget s.heap i with
    | none => .error ()
    | some n =>
      match tryBorrow n.flag with
      | none => .error ()
      | some fl =>
          .ok (some (n.elem, { s with heap := amodify s.heap i (fun m => { m with flag := fl }) }))

/-- `List::peek_front_mut` with the dynamic borrow check made explicit. -/
def peek_front_mut_chk {α : Type} (s : CellState α) :
    Except Unit (Option (α × CellState α)) :=
  match s.head with
  | none => .ok none
  | some i =>
    match aget s.heap i with
    | none => .error ()
    | some n =>
      match tryBorrowMut n.flag with
      | none => .error ()
      | some fl =>
          .ok (some (n.elem, { s with heap := amodify s.heap i (fun m => { m with flag := fl }) }))

/-- `List::peek_back_mut` with the dynamic borrow check made explicit. -/
def peek_back_mut_chk {α : Type} (s : CellState α) :
    Except Unit (Option (α × CellState α)) :=
  match s.tail with
  | none => .ok none
  | some i =>
    match aget s.heap i with
    | none => .error ()
    | some n =>
      match tryBorrowMut n.flag with
      | none => .error ()
      | some fl =>
          .ok (some (n.elem, { s with heap := amodify s.heap i (fun m => { m with flag := fl }) }))

/-- The test list: `push_front(1); push_front(2); push_front(3)` on a new
list. -/
def s123 : ListState Int :=
  push_front (push_front (push_front new 1) 2) 3

/-- A one-node list whose node's element is exclusively borrowed: the state
seen while the `RefMut` returned by a mutable peek is still alive. -/
def sW : CellState Int :=
  { heap := [(0, { flag := BorrowFlag.writing, elem := 1, next := none, prev := none })],
    head := some 0,
    tail := some 0 }

/-- The basics scenario of the spec (§8) and of the `basics` test: front
pushes 1,2,3, two pops, a push of 4, then three pops. -/
def scenario1 : Except Unit (List (Option Int)) := do
  let s := push_front (push_front (push_front new 1) 2) 3
  let (a, s) ← pop_front s
  let (b, s) ← pop_front s
  let s := push_front s 4
  let (c, s) ← pop_front s
  let (d, s) ← pop_front s
  let (e, _) ← pop_front s
  pure [a, b, c, d, e]

/-- The mixed-direction iterator scenario: front pushes 1,2,3, then
`into_iter` with alternating `next()` / `next_back()` calls. -/
def scenario4 : Except Unit (List (Option Int)) := do
  let it := into_iter (push_front (push_front (push_front new 1) 2) 3)
  let (a, it) ← it.next
  let (b, it) ← it.next_back
  let (c, it) ← it.next
  let (d, it) ← it.next_back
  let (e, _) ← it.next
  pure [a, b, c, d, e]

/-! ## Store lemmas -/

theorem aget_amodify_self {β : Type} (h : List (Nat × β)) (i : Nat) (f : β → β) :
    aget (amodify h i f) i = (aget h i).map f := by
  induction h with
  | nil => rfl
  | cons p t ih =>
    obtain ⟨j, n⟩ := p
    by_cases hj : j = i
    · subst hj
      simp [aget, amodify]
    · simp [aget, amodify, hj, ih]

theorem aget_amodify_ne {β : Type} (h : List (Nat × β)) (i j : Nat) (f : β → β)
    (hne : j ≠ i) : aget (amodify h i f) j = aget h j := by
  induction h with
  | nil => rfl
  | cons p t ih =>
    obtain ⟨k, n⟩ := p
    by_cases hkj : k = j
    · subst hkj
      have : ¬(k = i) := fun hc => hne (hc ▸ rfl)
      simp [aget, amodify, this]
    · simp [aget, amodify, hkj, ih]

theorem aget_aremove_self {β : Type} (h : List (Nat × β)) (i : Nat) :
    aget (aremove h i) i = none := by
  induction h with
  | nil => rfl
  | cons p t ih =>
    obtain ⟨j, n⟩ := p
    by_cases hj : j = i
    · simp [aremove, hj, ih]
    · simp [aremove, hj, aget, ih]

theorem aget_aremove_ne {β : Type} (h : List (Nat × β)) (i j : Nat) (hne : j ≠ i) :
    aget (aremove h i) j = aget h j := by
  induction h with
  | nil => rfl
  | cons p t ih =>
    obtain ⟨k, n⟩ := p
    by_cases hk : k = i
    · subst hk
      have : k ≠ j := fun hc => hne hc.symm
      simp [aremove, aget, this, ih]
    · simp [aremove, hk, aget, ih]

theorem keysOf_amodify {β : Type} (h : List (Nat × β)) (i : Nat) (f : β → β) :
    keysOf (amodify h i f) = keysOf h := by
  induction h with
  | nil => rfl
  | cons p t ih =>
    obtain ⟨k, n⟩ := p
    by_cases hk : k = i <;> simp [amodify, keysOf, hk, ih] <;> exact ih

theorem keysOf_nil {β : Type} : keysOf ([] : List (Nat × β)) = [] := rfl

theorem keysOf_cons {β : Type} (k : Nat) (n : β) (t : List (Nat × β)) :
    keysOf ((k, n) :: t) = k :: keysOf t := rfl

theorem mem_keysOf_aremove {β : Type} (h : List (Nat × β)) (i j : Nat) :
    j ∈ keysOf (aremove h i) ↔ j ∈ keysOf h ∧ j ≠ i := by
  induction h with
  | nil => simp [aremove, keysOf_nil]
  | cons p t ih =>
    obtain ⟨k, n⟩ := p
    by_cases hk : k = i
    · subst hk
      have hrw : aremove ((k, n) :: t) k = aremove t k := by simp [aremove]
      rw [hrw, ih, keysOf_cons, List.mem_cons]
      constructor
      · exact fun hj => ⟨Or.inr hj.1, hj.2⟩
      · rintro ⟨hj | hj, hne⟩
        · exact absurd hj hne
        · exact ⟨hj, hne⟩
    · rw [aremove]
      simp only [if_neg hk, keysOf_cons, List.mem_cons, ih]
      constructor
      · rintro (hj | hj)
        · exact ⟨Or.inl hj, hj ▸ hk⟩
        · exact ⟨Or.inr hj.1, hj.2⟩
      · rintro ⟨hj | hj, hne⟩
        · exact Or.inl hj
        · exact Or.inr ⟨hj, hne⟩

theorem aget_some_mem_keysOf {β : Type} (h : List (Nat × β)) (j : Nat) (n : β)
    (hg : aget h j = some n) : j ∈ keysOf h := by
  induction h with
  | nil => simp [aget] at hg
  | cons p t ih =>
    obtain ⟨k, m⟩ := p
    by_cases hk : k = j
    · simp [keysOf_cons, hk]
    · simp only [aget, if_neg hk] at hg
      simp only [keysOf_cons, List.mem_cons]
      exact Or.inr (ih hg)

theorem exists_aget_of_mem_keysOf {β : Type} (h : List (Nat × β)) (j : Nat)
    (hm : j ∈ keysOf h) : ∃ n, aget h j = some n := by
  induction h with
  | nil => simp [keysOf_nil] at hm
  | cons p t ih =>
    obtain ⟨k, m⟩ := p
    by_cases hk : k = j
    · exact ⟨m, by simp [aget, hk]⟩
    · rw [keysOf_cons, List.mem_cons] at hm
      rcases hm with hm | hm
      · exact absurd hm.symm hk
      · simpa [aget, hk] using ih hm

theorem length_keysOf {β : Type} (h : List (Nat × β)) :
    (keysOf h).length = h.length := by
  simp [keysOf]

theorem mem_amodify {β : Type} (h : List (Nat × β)) (i : Nat) (f : β → β)
    (j : Nat) (n : β) (hm : (j, n) ∈ amodify h i f) :
    ∃ n₀, (j, n₀) ∈ h ∧ n = (if j = i then f n₀ else n₀) := by
  induction h with
  | nil => simp [amodify] at hm
  | cons p t ih =>
    obtain ⟨k, m⟩ := p
    by_cases hk : k = i
    · subst hk
      simp [amodify] at hm
      rcases hm with ⟨hj, hn⟩ | hm
      · subst hj
        exact ⟨m, by simp, by simp [hn]⟩
      · obtain ⟨n₀, hmem, hval⟩ := ih hm
        exact ⟨n₀, by simp [hmem], hval⟩
    · simp [amodify, hk] at hm
      rcases hm with ⟨hj, hn⟩ | hm
      · subst hj
        exact ⟨m, by simp, by simp [hk, hn]⟩
      · obtain ⟨n₀, hmem, hval⟩ := ih hm
        exact ⟨n₀, by simp [hmem], hval⟩

theorem mem_keysOf_of_mem {β : Type} (h : List (Nat × β)) (j : Nat) (n : β)
    (hm : (j, n) ∈ h) : j ∈ keysOf h := by
  simp only [keysOf, List.mem_map]
  exact ⟨(j, n), hm, rfl⟩

theorem aget_of_mem_nodup {β : Type} (h : List (Nat × β)) (j : Nat) (n : β)
    (hnd : (keysOf h).Nodup) (hm : (j, n) ∈ h) : aget h j = some n := by
  induction h with
  | nil => simp at hm
  | cons p t ih =>
    obtain ⟨k, m⟩ := p
    rw [keysOf_cons, List.nodup_cons] at hnd
    rcases List.mem_cons.mp hm with hp | hp
    · rw [Prod.ext_iff] at hp
      obtain ⟨hj, hn⟩ := hp
      simp only at hj hn
      simp [aget, hj.symm, hn.symm]
    · have hkj : k ≠ j := by
        intro hc
        subst hc
        exact hnd.1 (mem_keysOf_of_mem t k n hp)
      simp only [aget, if_neg hkj]
      exact ih hnd.2 hp

/-! ## Chain-segment lemmas -/

theorem headOr_none (l : List Nat) : headOr l none = l.head? := by
  cases l <;> rfl

theorem headOr_append_one (t : List Nat) (z : Nat) (q : Option Nat) :
    headOr (t ++ [z]) q = headOr t (some z) := by
  cases t <;> rfl

theorem lastOr_cons (a : Nat) (t : List Nat) (p : Option Nat) :
    lastOr (a :: t) p = lastOr t (some a) := by
  cases t with
  | nil => rfl
  | cons b u =>
    have hw : ∃ w, (b :: u).getLast? = some w := by
      cases hu : (b :: u).getLast? with
      | some w => exact ⟨w, rfl⟩
      | none => simp [List.getLast?_eq_none_iff] at hu
    obtain ⟨w, hw⟩ := hw
    simp [lastOr, List.getLast?_cons_cons, hw]

theorem lastOr_none_eq (l : List Nat) : lastOr l none = l.getLast? := by
  cases hl : l.getLast? <;> simp [lastOr, hl]

theorem lastOr_reverse (l : List Nat) (q : Option Nat) :
    lastOr l.reverse q = headOr l q := by
  cases l with
  | nil => rfl
  | cons a t => simp [lastOr, headOr, List.getLast?_reverse]

theorem chainSeg_nil {α : Type} (h : Heap α) (f g : Node α → Option Nat)
    (p q : Option Nat) : chainSeg h f g p [] q := trivial

theorem chainSeg_cons_iff {α : Type} (h : Heap α) (f g : Node α → Option Nat)
    (p q : Option Nat) (a : Nat) (t : List Nat) :
    chainSeg h f g p (a :: t) q ↔
      ∃ n, aget h a = some n ∧ g n = p ∧ f n = headOr t q ∧
        chainSeg h f g (some a) t q := by
  cases hm : aget h a with
  | none => simp [chainSeg, hm]
  | some n => simp [chainSeg, hm]

theorem chainSeg_congr {α : Type} (h h' : Heap α) (f g : Node α → Option Nat)
    (l : List Nat) :
    ∀ (p q : Option Nat), (∀ j ∈ l, aget h' j = aget h j) →
      chainSeg h f g p l q → chainSeg h' f g p l q := by
  induction l with
  | nil => intro p q _ _; trivial
  | cons a t ih =>
    intro p q hag hc
    rw [chainSeg_cons_iff] at hc
    obtain ⟨n, hn, hgn, hfn, hrest⟩ := hc
    rw [chainSeg_cons_iff]
    refine ⟨n, ?_, hgn, hfn, ?_⟩
    · rw [hag a (List.mem_cons_self a t)]
      exact hn
    · exact ih (some a) q (fun j hj => hag j (List.mem_cons_of_mem a hj)) hrest

theorem chainSeg_append_one {α : Type} (h : Heap α) (f g : Node α → Option Nat)
    (z : Nat) (m : List Nat) :
    ∀ (P Q : Option Nat),
      chainSeg h f g P (m ++ [z]) Q ↔
        (chainSeg h f g P m (some z) ∧
          ∃ n, aget h z = some n ∧ g n = lastOr m P ∧ f n = Q) := by
  induction m with
  | nil =>
    intro P Q
    rw [List.nil_append, chainSeg_cons_iff]
    constructor
    · rintro ⟨n, hn, hg, hf, -⟩
      exact ⟨chainSeg_nil h f g P (some z), n, hn, hg, hf⟩
    · rintro ⟨-, n, hn, hg, hf⟩
      exact ⟨n, hn, hg, hf, chainSeg_nil h f g (some z) Q⟩
  | cons a t ih =>
    intro P Q
    rw [List.cons_append, chainSeg_cons_iff, chainSeg_cons_iff]
    constructor
    · rintro ⟨n, hn, hg, hf, hrest⟩
      rw [ih] at hrest
      obtain ⟨nz, h1, h2, h3⟩ := hrest.2
      refine ⟨⟨n, hn, hg, ?_, hrest.1⟩, nz, h1, ?_, h3⟩
      · rw [hf, headOr_append_one]
      · rw [h2, lastOr_cons]
    · rintro ⟨⟨n, hn, hg, hf, hrest⟩, nz, h1, h2, h3⟩
      refine ⟨n, hn, hg, ?_, ?_⟩
      · rw [hf, headOr_append_one]
      · rw [ih]
        exact ⟨hrest, nz, h1, by rw [h2, lastOr_cons], h3⟩

theorem chainSeg_links {α : Type} (h : Heap α) (f g : Node α → Option Nat)
    (l : List Nat) :
    ∀ (p q : Option Nat), chainSeg h f g p l q →
      ∀ j ∈ l, ∀ n, aget h j = some n →
        (f n = q ∨ ∃ x ∈ l.tail, f n = some x) ∧
        (g n = p ∨ ∃ x ∈ l.dropLast, g n = some x) := by
  induction l with
  | nil => intro p q _ j hj; simp at hj
  | cons a t ih =>
    intro p q hc j hj n hn
    rw [chainSeg_cons_iff] at hc
    obtain ⟨n₀, hn₀, hg₀, hf₀, hrest⟩ := hc
    rcases List.mem_cons.mp hj with hja | hjt
    · subst hja
      rw [hn₀] at hn
      injection hn with hn
      subst hn
      constructor
      · cases t with
        | nil => exact Or.inl hf₀
        | cons b u => exact Or.inr ⟨b, by simp, hf₀⟩
      · exact Or.inl hg₀
    · have ht := ih (some a) q hrest j hjt n hn
      have htne : t ≠ [] := List.ne_nil_of_mem hjt
      constructor
      · rcases ht.1 with hq | ⟨x, hx, hfx⟩
        · exact Or.inl hq
        · exact Or.inr ⟨x, List.mem_of_mem_tail hx, hfx⟩
      · rcases ht.2 with ha | ⟨x, hx, hgx⟩
        · refine Or.inr ⟨a, ?_, ha⟩
          rw [List.dropLast_cons_of_ne_nil htne]
          exact List.mem_cons_self a t.dropLast
        · refine Or.inr ⟨x, ?_, hgx⟩
          rw [List.dropLast_cons_of_ne_nil htne]
          exact List.mem_cons_of_mem a hx

theorem chainSeg_reverse {α : Type} (h : Heap α) (f g : Node α → Option Nat)
    (l : List Nat) :
    ∀ (p q : Option Nat), chainSeg h f g p l q → chainSeg h g f q l.reverse p := by
  induction l with
  | nil => intro p q _; trivial
  | cons a t ih =>
    intro p q hc
    rw [chainSeg_cons_iff] at hc
    obtain ⟨n, hn, hg, hf, hrest⟩ := hc
    rw [List.reverse_cons, chainSeg_append_one]
    refine ⟨ih (some a) q hrest, n, hn, ?_, hg⟩
    rw [hf, lastOr_reverse]

theorem walkBy_eq {α : Type} (h : Heap α) (f g : Node α → Option Nat)
    (l : List Nat) :
    ∀ (p : Option Nat), chainSeg h f g p l none →
      ∀ fuel, l.length ≤ fuel → walkBy h f fuel l.head? = l := by
  induction l with
  | nil =>
    intro p _ fuel _
    cases fuel <;> rfl
  | cons a t ih =>
    intro p hc fuel hfuel
    rw [chainSeg_cons_iff] at hc
    obtain ⟨n, hn, -, hf, hrest⟩ := hc
    cases fuel with
    | zero => simp at hfuel
    | succ k =>
      show a :: walkBy h f k ((aget h a).bind f) = a :: t
      rw [hn]
      show a :: walkBy h f k (f n) = a :: t
      rw [hf, headOr_none,
        ih (some a) hrest k (Nat.le_of_succ_le_succ (by simpa using hfuel))]

/-! ## Preservation of the structural invariant -/

theorem aget_cons {β : Type} (k : Nat) (n : β) (t : List (Nat × β)) (i : Nat) :
    aget ((k, n) :: t) i = if k = i then some n else aget t i := rfl

theorem aget_cons_self {β : Type} (k : Nat) (n : β) (t : List (Nat × β)) :
    aget ((k, n) :: t) k = some n := by simp [aget]

theorem chainInv_push_front {α : Type} (s : ListState α) (x : α) (ids : List Nat)
    (h : chainInv s ids) :
    chainInv (push_front s x) (s.nextId :: ids) ∧
    aget (push_front s x).heap s.nextId =
      some { elem := x, next := ids.head?, prev := none } ∧
    (∀ j n, j ∈ ids → aget s.heap j = some n →
      ∃ n', aget (push_front s x).heap j = some n' ∧ n'.elem = n.elem) := by
  obtain ⟨hnd, hbound, hperm, hhead, htail, hchain⟩ := h
  have hfresh : ∀ j ∈ ids, j ≠ s.nextId :=
    fun j hj => Nat.ne_of_lt (hbound j hj)
  cases hh : s.head with
  | none =>
    have hids : ids = [] := by
      rw [hh] at hhead
      exact List.head?_eq_none_iff.mp hhead.symm
    subst hids
    have hkeys : keysOf s.heap = [] := hperm.eq_nil
    refine ⟨⟨by simp, ?_, ?_, ?_, ?_, ?_⟩, ?_, ?_⟩
    · intro i hi
      simp [push_front, hh] at hi ⊢
      simp [hi]
    · simp only [push_front, hh]
      rw [keysOf_cons, hkeys]
    · simp [push_front, hh]
    · simp [push_front, hh]
    · simp only [push_front, hh]
      rw [chainSeg_cons_iff]
      exact ⟨{ elem := x, next := none, prev := none }, aget_cons_self _ _ _, rfl, rfl, chainSeg_nil _ _ _ _ _⟩
    · simp only [push_front, hh]
      exact aget_cons_self _ _ _
    · intro j n hj
      simp at hj
  | some a =>
    have hids : ∃ t, ids = a :: t := by
      cases ids with
      | nil => rw [hh] at hhead; simp at hhead
      | cons b t =>
        rw [hh] at hhead
        simp at hhead
        exact ⟨t, by rw [hhead]⟩
    obtain ⟨t, hids⟩ := hids
    subst hids
    have hane : a ≠ s.nextId := hfresh a (List.mem_cons_self a t)
    rw [chainSeg_cons_iff] at hchain
    obtain ⟨na, hna, hprev_a, hnext_a, hrest⟩ := hchain
    have hheap' : (push_front s x).heap =
        (s.nextId, { elem := x, next := some a, prev := none }) ::
          amodify s.heap a (fun n => { n with prev := some s.nextId }) := by
      simp [push_front, hh]
    have hagetnew : ∀ j, j ≠ s.nextId →
        aget (push_front s x).heap j =
          aget (amodify s.heap a (fun n => { n with prev := some s.nextId })) j := by
      intro j hj
      rw [hheap', aget_cons, if_neg (fun hc => hj hc.symm)]
    refine ⟨⟨?_, ?_, ?_, ?_, ?_, ?_⟩, ?_, ?_⟩
    · exact List.nodup_cons.mpr ⟨fun hc => hfresh _ hc rfl, hnd⟩
    · intro i hi
      rcases List.mem_cons.mp hi with hi | hi
      · simp [push_front, hh, hi]
      · simp only [push_front, hh]
        exact Nat.lt_succ_of_lt (hbound i hi)
    · rw [hheap', keysOf_cons, keysOf_amodify]
      exact hperm.cons s.nextId
    · simp [push_front, hh]
    · simp only [push_front, hh]
      rw [htail, List.getLast?_cons_cons]
    · rw [chainSeg_cons_iff]
      refine ⟨{ elem := x, next := some a, prev := none }, ?_, rfl, rfl, ?_⟩
      · rw [hheap']
        exact aget_cons_self _ _ _
      · rw [chainSeg_cons_iff]
        refine ⟨{ na with prev := some s.nextId }, ?_, rfl, hnext_a, ?_⟩
        · rw [hagetnew a hane, aget_amodify_self, hna]
          rfl
        · refine chainSeg_congr s.heap (push_front s x).heap _ _ t (some a) none ?_ hrest
          intro j hj
          have hjne : j ≠ s.nextId := hfresh j (List.mem_cons_of_mem a hj)
          have hja : j ≠ a := by
            intro hc
            subst hc
            exact (List.nodup_cons.mp hnd).1 hj
          rw [hagetnew j hjne, aget_amodify_ne _ _ _ _ hja]
    · rw [hheap']
      exact aget_cons_self _ _ _
    · intro j n hj hn
      have hjne : j ≠ s.nextId := hfresh j hj
      rw [hagetnew j hjne]
      by_cases hja : j = a
      · subst hja
        rw [aget_amodify_self, hn]
        exact ⟨_, rfl, rfl⟩
      · rw [aget_amodify_ne _ _ _ _ hja, hn]
        exact ⟨n, rfl, rfl⟩

theorem nodup_keysOf_aremove {β : Type} (h : List (Nat × β)) (i : Nat)
    (hnd : (keysOf h).Nodup) : (keysOf (aremove h i)).Nodup := by
  induction h with
  | nil => simp [aremove, keysOf_nil]
  | cons p t ih =>
    obtain ⟨k, n⟩ := p
    rw [keysOf_cons, List.nodup_cons] at hnd
    by_cases hk : k = i
    · rw [aremove, if_pos hk]
      exact ih hnd.2
    · rw [aremove, if_neg hk, keysOf_cons, List.nodup_cons]
      exact ⟨fun hc => hnd.1 ((mem_keysOf_aremove t i k).mp hc).1, ih hnd.2⟩

theorem heapLinkCount_eq_zero {α : Type} (h : Heap α) (i : Nat)
    (hz : ∀ j n, (j, n) ∈ h → n.next ≠ some i ∧ n.prev ≠ some i) :
    heapLinkCount h i = 0 := by
  induction h with
  | nil => rfl
  | cons p t ih =>
    obtain ⟨k, n⟩ := p
    have hn := hz k n (List.mem_cons_self _ _)
    rw [heapLinkCount]
    rw [ih (fun j m hm => hz j m (List.mem_cons_of_mem _ hm))]
    simp [linkCount, hn.1, hn.2]

theorem chainInv_pop_front {α : Type} (s : ListState α) (a : Nat) (t : List Nat)
    (h : chainInv s (a :: t)) :
    ∃ n s', aget s.heap a = some n ∧
      pop_front s = .ok (some n.elem, s') ∧
      chainInv s' t ∧
      s'.nextId = s.nextId ∧
      (∀ j m, j ≠ a → aget s.heap j = some m →
        ∃ m', aget s'.heap j = some m' ∧ m'.elem = m.elem) := by
  obtain ⟨hnd, hbound, hperm, hhead, htail, hchain⟩ := h
  have hkeysnd : (keysOf s.heap).Nodup := hperm.nodup_iff.mpr hnd
  have hmemids : ∀ j, j ∈ keysOf s.heap ↔ j ∈ a :: t := fun j => hperm.mem_iff
  have hat : a ∉ t := (List.nodup_cons.mp hnd).1
  have hndt : t.Nodup := (List.nodup_cons.mp hnd).2
  have hchain0 := hchain
  rw [chainSeg_cons_iff] at hchain
  obtain ⟨n, hn, hprev, hnextn, hrest⟩ := hchain
  have hhead' : s.head = some a := by rw [hhead]; rfl
  cases t with
  | nil =>
    have hnext0 : n.next = none := hnextn
    have hzero : heapLinkCount (amodify s.heap a (fun m => { m with next := none })) a = 0 := by
      apply heapLinkCount_eq_zero
      intro j m hm
      obtain ⟨m₀, hm₀, hval⟩ := mem_amodify _ _ _ _ _ hm
      have hja : j = a := by
        have := (hmemids j).mp (mem_keysOf_of_mem _ _ _ hm₀)
        simpa using this
      subst hja
      have hm₀n : m₀ = n := by
        have hg := aget_of_mem_nodup _ _ _ hkeysnd hm₀
        rw [hn] at hg
        exact (Option.some_injective _ hg).symm
      subst hm₀n
      rw [if_pos rfl] at hval
      subst hval
      constructor
      · simp
      · simp [hprev]
    refine ⟨n, ⟨aremove (amodify s.heap a (fun m => { m with next := none })) a,
      s.nextId, none, none⟩, hn, ?_, ?_, rfl, ?_⟩
    · have hrc0 : refCount ⟨amodify s.heap a (fun m => { m with next := none }),
          s.nextId, none, none⟩ a = 0 := by
        simp [refCount, linkCount, hzero]
      simp only [pop_front, hhead', hn, hnext0]
      rw [if_pos hrc0]
    · have hempty : keysOf (aremove (amodify s.heap a
          (fun m => { m with next := none })) a) = [] := by
        rw [List.eq_nil_iff_forall_not_mem]
        intro j hj
        rw [mem_keysOf_aremove, keysOf_amodify] at hj
        have := (hmemids j).mp hj.1
        simp at this
        exact hj.2 this
      exact ⟨by simp, by simp, by rw [hempty], rfl, rfl, trivial⟩
    · intro j m hj hm
      exfalso
      have := (hmemids j).mp (aget_some_mem_keysOf _ _ _ hm)
      simp at this
      exact hj this
  | cons b t' =>
    have hnextb : n.next = some b := hnextn
    rw [chainSeg_cons_iff] at hrest
    obtain ⟨nb, hnb, hprevb, hnextb2, hrest2⟩ := hrest
    have hba : b ≠ a := by
      intro hc
      subst hc
      exact hat (List.mem_cons_self b t')
    have hat' : a ∉ t' := fun hc => hat (List.mem_cons_of_mem b hc)
    have hbt' : b ∉ t' := (List.nodup_cons.mp hndt).1
    have htail' : s.tail = (b :: t').getLast? := by
      rw [htail, List.getLast?_cons_cons]
    have hw : ∃ w, (b :: t').getLast? = some w ∧ w ∈ b :: t' := by
      rw [List.getLast?_eq_getLast_of_ne_nil (List.cons_ne_nil b t')]
      exact ⟨_, rfl, List.getLast_mem (List.cons_ne_nil b t')⟩
    obtain ⟨w, hwl, hwm⟩ := hw
    have hwa : w ≠ a := fun hc => hat (hc ▸ hwm)
    have hzero : heapLinkCount (amodify (amodify s.heap a
        (fun m => { m with next := none })) b (fun m => { m with prev := none })) a = 0 := by
      apply heapLinkCount_eq_zero
      intro j m hm
      obtain ⟨m₁, hm₁, hval₁⟩ := mem_amodify _ _ _ _ _ hm
      obtain ⟨m₀, hm₀, hval₀⟩ := mem_amodify _ _ _ _ _ hm₁
      have hjids : j ∈ a :: b :: t' := (hmemids j).mp (mem_keysOf_of_mem _ _ _ hm₀)
      have hgj : aget s.heap j = some m₀ := aget_of_mem_nodup _ _ _ hkeysnd hm₀
      have hmn : m.next = if j = a then none else m₀.next := by
        rw [hval₁, hval₀]
        by_cases hjb : j = b <;> by_cases hja2 : j = a
        · exact absurd (hjb.symm.trans hja2) hba
        · simp [hjb, hja2, hba, hba.symm]
        · simp [hjb, hja2, hba, hba.symm]
        · simp [hjb, hja2, hba, hba.symm]
      have hmp : m.prev = if j = b then none else m₀.prev := by
        rw [hval₁, hval₀]
        by_cases hjb : j = b <;> by_cases hja2 : j = a
        · exact absurd (hjb.symm.trans hja2) hba
        · simp [hjb, hja2, hba, hba.symm]
        · simp [hjb, hja2, hba, hba.symm]
        · simp [hjb, hja2, hba, hba.symm]
      constructor
      · rw [hmn]
        by_cases hja2 : j = a
        · simp [hja2]
        · rw [if_neg hja2]
          rcases (chainSeg_links s.heap Node.next Node.prev (a :: b :: t')
              none none hchain0 j hjids m₀ hgj).1 with hq | ⟨x, hx, hfx⟩
          · rw [hq]; simp
          · rw [hfx]
            intro hc
            injection hc with hc
            subst hc
            exact hat (by simpa using hx)
      · rw [hmp]
        by_cases hjb : j = b
        · simp [hjb]
        · rw [if_neg hjb]
          rcases List.mem_cons.mp hjids with hja2 | hjbt
          · subst hja2
            rw [hn] at hgj
            rw [← Option.some_injective _ hgj, hprev]
            simp
          · have hjt' : j ∈ t' := by
              rcases List.mem_cons.mp hjbt with hc | hc
              · exact absurd hc hjb
              · exact hc
            rcases (chainSeg_links s.heap Node.next Node.prev t'
                (some b) none hrest2 j hjt' m₀ hgj).2 with hp | ⟨x, hx, hgx⟩
            · rw [hp]
              simp [hba]
            · rw [hgx]
              intro hc
              injection hc with hc
              subst hc
              exact hat' (List.mem_of_mem_dropLast hx)
    have hrc : refCount ⟨amodify (amodify s.heap a (fun m => { m with next := none })) b
        (fun m => { m with prev := none }), s.nextId, some b, s.tail⟩ a = 0 := by
      simp only [refCount, hzero]
      rw [htail', hwl]
      simp [linkCount, hba, hwa]
    refine ⟨n, ⟨aremove (amodify (amodify s.heap a (fun m => { m with next := none })) b
        (fun m => { m with prev := none })) a, s.nextId, some b, s.tail⟩,
      hn, ?_, ?_, rfl, ?_⟩
    · simp only [pop_front, hhead', hn, hnextb]
      rw [if_pos hrc]
    · refine ⟨hndt, fun i hi => hbound i (List.mem_cons_of_mem a hi), ?_, rfl, htail', ?_⟩
      · -- keys of the new heap are a permutation of b :: t'
        apply (List.perm_ext_iff_of_nodup
          (nodup_keysOf_aremove _ _ (by rw [keysOf_amodify, keysOf_amodify]; exact hkeysnd))
          hndt).mpr
        intro j
        rw [mem_keysOf_aremove, keysOf_amodify, keysOf_amodify, hmemids j]
        constructor
        · rintro ⟨hj1, hj2⟩
          rcases List.mem_cons.mp hj1 with hc | hc
          · exact absurd hc hj2
          · exact hc
        · intro hj
          exact ⟨List.mem_cons_of_mem a hj, fun hc => hat (hc ▸ hj)⟩
      · -- chain of b :: t' in the new heap
        rw [chainSeg_cons_iff]
        refine ⟨{ nb with prev := none }, ?_, rfl, hnextb2, ?_⟩
        · rw [aget_aremove_ne _ _ _ hba, aget_amodify_self,
            aget_amodify_ne _ _ _ _ hba, hnb]
          rfl
        · apply chainSeg_congr s.heap _ _ _ t' (some b) none _ hrest2
          intro j hj
          have hja : j ≠ a := fun hc => hat' (hc ▸ hj)
          have hjb : j ≠ b := fun hc => hbt' (hc ▸ hj)
          rw [aget_aremove_ne _ _ _ hja, aget_amodify_ne _ _ _ _ hjb,
            aget_amodify_ne _ _ _ _ hja]
    · intro j m hj hm
      rw [aget_aremove_ne _ _ _ hj]
      by_cases hjb : j = b
      · subst hjb
        rw [aget_amodify_self, aget_amodify_ne _ _ _ _ hj, hm]
        exact ⟨_, rfl, rfl⟩
      · rw [aget_amodify_ne _ _ _ _ hjb, aget_amodify_ne _ _ _ _ hj, hm]
        exact ⟨m, rfl, rfl⟩

theorem chainInv_push_back {α : Type} (s : ListState α) (x : α) (ids : List Nat)
    (h : chainInv s ids) :
    chainInv (push_back s x) (ids ++ [s.nextId]) ∧
    aget (push_back s x).heap s.nextId =
      some { elem := x, next := none, prev := ids.getLast? } ∧
    (∀ j n, j ∈ ids → aget s.heap j = some n →
      ∃ n', aget (push_back s x).heap j = some n' ∧ n'.elem = n.elem) := by
  obtain ⟨hnd, hbound, hperm, hhead, htail, hchain⟩ := h
  have hfresh : ∀ j ∈ ids, j ≠ s.nextId :=
    fun j hj => Nat.ne_of_lt (hbound j hj)
  cases ht : s.tail with
  | none =>
    have hids : ids = [] := by
      rw [ht] at htail
      exact List.getLast?_eq_none_iff.mp htail.symm
    subst hids
    have hkeys : keysOf s.heap = [] := hperm.eq_nil
    refine ⟨⟨by simp, ?_, ?_, ?_, ?_, ?_⟩, ?_, ?_⟩
    · intro i hi
      simp [push_back, ht] at hi ⊢
      simp [hi]
    · simp only [push_back, ht, List.nil_append]
      rw [keysOf_cons, hkeys]
    · simp [push_back, ht]
    · simp [push_back, ht]
    · simp only [push_back, ht, List.nil_append]
      rw [chainSeg_cons_iff]
      exact ⟨{ elem := x, next := none, prev := none }, aget_cons_self _ _ _, rfl, rfl,
        chainSeg_nil _ _ _ _ _⟩
    · simp only [push_back, ht]
      exact aget_cons_self _ _ _
    · intro j n hj
      simp at hj
  | some old_tail =>
    have hgl : ids.getLast? = some old_tail := by rw [← htail, ht]
    have hids : ids.dropLast ++ [old_tail] = ids :=
      List.dropLast_append_getLast? old_tail hgl
    have hne : ids ≠ [] := by
      intro hc
      rw [hc] at hgl
      simp at hgl
    have hwm : old_tail ∈ ids := by
      rw [← hids]
      simp
    have hwne : old_tail ≠ s.nextId := hfresh _ hwm
    have hndm : ids.dropLast.Nodup ∧ old_tail ∉ ids.dropLast := by
      rw [← hids] at hnd
      rw [List.nodup_append] at hnd
      exact ⟨hnd.1, fun hc => hnd.2.2 hc (List.mem_singleton_self _)⟩
    have hseg : chainSeg s.heap Node.next Node.prev none ids.dropLast (some old_tail) ∧
        ∃ nw, aget s.heap old_tail = some nw ∧
          nw.prev = lastOr ids.dropLast none ∧ nw.next = none := by
      have := hchain
      rw [← hids, chainSeg_append_one] at this
      exact this
    obtain ⟨hsegm, nw, hnw, hprevw, hnextw⟩ := hseg
    have hheap' : (push_back s x).heap =
        (s.nextId, { elem := x, next := none, prev := some old_tail }) ::
          amodify s.heap old_tail (fun n => { n with next := some s.nextId }) := by
      simp [push_back, ht]
    have hagetnew : ∀ j, j ≠ s.nextId →
        aget (push_back s x).heap j =
          aget (amodify s.heap old_tail (fun n => { n with next := some s.nextId })) j := by
      intro j hj
      rw [hheap', aget_cons, if_neg (fun hc => hj hc.symm)]
    refine ⟨⟨?_, ?_, ?_, ?_, ?_, ?_⟩, ?_, ?_⟩
    · refine List.Nodup.append hnd (List.nodup_singleton _) ?_
      intro y hy hz
      rw [List.mem_singleton] at hz
      subst hz
      exact hfresh _ hy rfl
    · intro i hi
      rcases List.mem_append.mp hi with hi | hi
      · simp only [push_back, ht]
        exact Nat.lt_succ_of_lt (hbound i hi)
      · rw [List.mem_singleton] at hi
        subst hi
        simp [push_back, ht]
    · rw [hheap', keysOf_cons, keysOf_amodify]
      exact (hperm.cons s.nextId).trans (List.perm_append_singleton _ _).symm
    · simp only [push_back, ht]
      rw [hhead, List.head?_append_of_ne_nil _ hne]
    · simp only [push_back, ht]
      rw [List.getLast?_concat]
    · rw [chainSeg_append_one]
      constructor
      · rw [← hids, chainSeg_append_one]
        constructor
        · refine chainSeg_congr s.heap _ _ _ ids.dropLast none (some old_tail) ?_ hsegm
          intro j hj
          have hjids : j ∈ ids := List.mem_of_mem_dropLast hj
          have hjw : j ≠ old_tail := by
            intro hc
            subst hc
            exact hndm.2 hj
          rw [hagetnew j (hfresh j hjids), aget_amodify_ne _ _ _ _ hjw]
        · refine ⟨{ nw with next := some s.nextId }, ?_, hprevw, rfl⟩
          rw [hagetnew _ hwne, aget_amodify_self, hnw]
          rfl
      · refine ⟨{ elem := x, next := none, prev := some old_tail }, ?_, ?_, rfl⟩
        · rw [hheap']
          exact aget_cons_self _ _ _
        · rw [lastOr_none_eq, hgl]
    · rw [hheap', aget_cons_self, hgl]
    · intro j n hj hn
      rw [hagetnew j (hfresh j hj)]
      by_cases hjw : j = old_tail
      · subst hjw
        rw [aget_amodify_self, hn]
        exact ⟨_, rfl, rfl⟩
      · rw [aget_amodify_ne _ _ _ _ hjw, hn]
        exact ⟨n, rfl, rfl⟩

theorem chainInv_pop_back {α : Type} (s : ListState α) (z : Nat) (ms : List Nat)
    (h : chainInv s (ms ++ [z])) :
    ∃ n s', aget s.heap z = some n ∧
      pop_back s = .ok (some n.elem, s') ∧
      chainInv s' ms ∧
      s'.nextId = s.nextId ∧
      (∀ j m, j ≠ z → aget s.heap j = some m →
        ∃ m', aget s'.heap j = some m' ∧ m'.elem = m.elem) := by
  obtain ⟨hnd, hbound, hperm, hhead, htail, hchain⟩ := h
  have hkeysnd : (keysOf s.heap).Nodup := hperm.nodup_iff.mpr hnd
  have hmemids : ∀ j, j ∈ keysOf s.heap ↔ j ∈ ms ++ [z] := fun j => hperm.mem_iff
  have hndm : ms.Nodup ∧ z ∉ ms := by
    rw [List.nodup_append] at hnd
    exact ⟨hnd.1, fun hc => hnd.2.2 hc (List.mem_singleton_self _)⟩
  have htail' : s.tail = some z := by rw [htail, List.getLast?_concat]
  have hchain0 := hchain
  rw [chainSeg_append_one] at hchain
  obtain ⟨hsegm, nz, hnz, hprevz, hnextz⟩ := hchain
  by_cases hmsnil : ms = []
  · subst hmsnil
    have hprev0 : nz.prev = none := by rw [hprevz]; rfl
    have hzero : heapLinkCount (amodify s.heap z (fun m => { m with prev := none })) z = 0 := by
      apply heapLinkCount_eq_zero
      intro j m hm
      obtain ⟨m₀, hm₀, hval⟩ := mem_amodify _ _ _ _ _ hm
      have hjz : j = z := by
        have := (hmemids j).mp (mem_keysOf_of_mem _ _ _ hm₀)
        simpa using this
      subst hjz
      have hm₀n : m₀ = nz := by
        have hg := aget_of_mem_nodup _ _ _ hkeysnd hm₀
        rw [hnz] at hg
        exact (Option.some_injective _ hg).symm
      subst hm₀n
      rw [if_pos rfl] at hval
      subst hval
      constructor
      · simp [hnextz]
      · simp
    have hrc0 : refCount ⟨amodify s.heap z (fun m => { m with prev := none }),
        s.nextId, none, none⟩ z = 0 := by
      simp [refCount, linkCount, hzero]
    refine ⟨nz, ⟨aremove (amodify s.heap z (fun m => { m with prev := none })) z,
      s.nextId, none, none⟩, hnz, ?_, ?_, rfl, ?_⟩
    · simp only [pop_back, htail', hnz, hprev0]
      rw [if_pos hrc0]
    · have hempty : keysOf (aremove (amodify s.heap z
          (fun m => { m with prev := none })) z) = [] := by
        rw [List.eq_nil_iff_forall_not_mem]
        intro j hj
        rw [mem_keysOf_aremove, keysOf_amodify] at hj
        have := (hmemids j).mp hj.1
        simp at this
        exact hj.2 this
      exact ⟨by simp, by simp, by rw [hempty], rfl, rfl, trivial⟩
    · intro j m hj hm
      exfalso
      have := (hmemids j).mp (aget_some_mem_keysOf _ _ _ hm)
      simp at this
      exact hj this
  · -- the remaining chain ms is nonempty; decompose it as ms.dropLast ++ [w]
    have hmsne : ms ≠ [] := hmsnil
    have hglm : ∃ w, ms.getLast? = some w := by
      rw [List.getLast?_eq_getLast_of_ne_nil hmsne]
      exact ⟨_, rfl⟩
    obtain ⟨w, hglw⟩ := hglm
    have hidsm : ms.dropLast ++ [w] = ms := List.dropLast_append_getLast? w hglw
    have hwm : w ∈ ms := by rw [← hidsm]; simp
    have hwz : w ≠ z := fun hc => hndm.2 (hc ▸ hwm)
    have hzm' : z ∉ ms.dropLast := fun hc => hndm.2 (List.mem_of_mem_dropLast hc)
    have hwm' : w ∉ ms.dropLast := by
      have := hndm.1
      rw [← hidsm, List.nodup_append] at this
      exact fun hc => this.2.2 hc (List.mem_singleton_self _)
    have hprevzw : nz.prev = some w := by
      rw [hprevz, lastOr_none_eq, hglw]
    have hseg2 : chainSeg s.heap Node.next Node.prev none ms.dropLast (some w) ∧
        ∃ nw, aget s.heap w = some nw ∧
          nw.prev = lastOr ms.dropLast none ∧ nw.next = some z := by
      have := hsegm
      rw [← hidsm, chainSeg_append_one] at this
      exact this
    obtain ⟨hsegm2, nw, hnw, hprevw, hnextw⟩ := hseg2
    have hheadm : ∃ y, s.head = some y ∧ y ∈ ms := by
      cases hmc : ms with
      | nil => exact absurd hmc hmsne
      | cons c' u =>
        refine ⟨c', ?_, List.mem_cons_self c' u⟩
        rw [hhead, hmc]
        rfl
    obtain ⟨y, hy, hym⟩ := hheadm
    have hyz : y ≠ z := fun hc => hndm.2 (hc ▸ hym)
    have hzero : heapLinkCount (amodify (amodify s.heap z
        (fun m => { m with prev := none })) w (fun m => { m with next := none })) z = 0 := by
      apply heapLinkCount_eq_zero
      intro j m hm
      obtain ⟨m₁, hm₁, hval₁⟩ := mem_amodify _ _ _ _ _ hm
      obtain ⟨m₀, hm₀, hval₀⟩ := mem_amodify _ _ _ _ _ hm₁
      have hjids : j ∈ ms ++ [z] := (hmemids j).mp (mem_keysOf_of_mem _ _ _ hm₀)
      have hgj : aget s.heap j = some m₀ := aget_of_mem_nodup _ _ _ hkeysnd hm₀
      have hmn : m.next = if j = w then none else m₀.next := by
        rw [hval₁, hval₀]
        by_cases hjw : j = w <;> by_cases hjz : j = z
        · exact absurd (hjw.symm.trans hjz) hwz
        · simp [hjw, hjz, hwz, hwz.symm]
        · simp [hjw, hjz, hwz, hwz.symm]
        · simp [hjw, hjz, hwz, hwz.symm]
      have hmp : m.prev = if j = z then none else m₀.prev := by
        rw [hval₁, hval₀]
        by_cases hjw : j = w <;> by_cases hjz : j = z
        · exact absurd (hjw.symm.trans hjz) hwz
        · simp [hjw, hjz, hwz, hwz.symm]
        · simp [hjw, hjz, hwz, hwz.symm]
        · simp [hjw, hjz, hwz, hwz.symm]
      constructor
      · rw [hmn]
        by_cases hjw : j = w
        · simp [hjw]
        · rw [if_neg hjw]
          rcases List.mem_append.mp hjids with hjm | hjz1
          · have hjm' : j ∈ ms.dropLast := by
              rw [← hidsm] at hjm
              rcases List.mem_append.mp hjm with hc | hc
              · exact hc
              · rw [List.mem_singleton] at hc
                exact absurd hc hjw
            rcases (chainSeg_links s.heap Node.next Node.prev ms.dropLast
                none (some w) hsegm2 j hjm' m₀ hgj).1 with hq | ⟨x, hx, hfx⟩
            · rw [hq]
              simp [hwz]
            · rw [hfx]
              intro hc
              injection hc with hc
              subst hc
              exact hzm' (List.mem_of_mem_tail hx)
          · rw [List.mem_singleton] at hjz1
            subst hjz1
            rw [hnz] at hgj
            rw [← Option.some_injective _ hgj, hnextz]
            simp
      · rw [hmp]
        by_cases hjz : j = z
        · simp [hjz]
        · rw [if_neg hjz]
          rcases (chainSeg_links s.heap Node.next Node.prev (ms ++ [z])
              none none hchain0 j hjids m₀ hgj).2 with hp | ⟨x, hx, hgx⟩
          · rw [hp]
            simp
          · rw [hgx]
            intro hc
            injection hc with hc
            subst hc
            rw [List.dropLast_concat] at hx
            exact hndm.2 hx
    have hrc : refCount ⟨amodify (amodify s.heap z (fun m => { m with prev := none })) w
        (fun m => { m with next := none }), s.nextId, s.head, some w⟩ z = 0 := by
      simp only [refCount, hzero]
      rw [hy]
      simp [linkCount, hyz, hwz]
    refine ⟨nz, ⟨aremove (amodify (amodify s.heap z (fun m => { m with prev := none })) w
        (fun m => { m with next := none })) z, s.nextId, s.head, some w⟩,
      hnz, ?_, ?_, rfl, ?_⟩
    · simp only [pop_back, htail', hnz, hprevzw]
      rw [if_pos hrc]
    · refine ⟨hndm.1, ?_, ?_, ?_, ?_, ?_⟩
      · intro i hi
        exact hbound i (List.mem_append_left _ hi)
      · apply (List.perm_ext_iff_of_nodup
          (nodup_keysOf_aremove _ _
            (by rw [keysOf_amodify, keysOf_amodify]; exact hkeysnd))
          hndm.1).mpr
        intro j
        rw [mem_keysOf_aremove, keysOf_amodify, keysOf_amodify, hmemids j]
        constructor
        · rintro ⟨hj1, hj2⟩
          rcases List.mem_append.mp hj1 with hc | hc
          · exact hc
          · rw [List.mem_singleton] at hc
            exact absurd hc hj2
        · intro hj
          exact ⟨List.mem_append_left _ hj, fun hc => hndm.2 (hc ▸ hj)⟩
      · rw [hhead, List.head?_append_of_ne_nil _ hmsne]
      · rw [hglw]
      · rw [← hidsm, chainSeg_append_one]
        constructor
        · refine chainSeg_congr s.heap _ _ _ ms.dropLast none (some w) ?_ hsegm2
          intro j hj
          have hjz : j ≠ z := fun hc => hzm' (hc ▸ hj)
          have hjw : j ≠ w := fun hc => hwm' (hc ▸ hj)
          rw [aget_aremove_ne _ _ _ hjz, aget_amodify_ne _ _ _ _ hjw,
            aget_amodify_ne _ _ _ _ hjz]
        · refine ⟨{ nw with next := none }, ?_, ?_, rfl⟩
          · rw [aget_aremove_ne _ _ _ hwz, aget_amodify_self,
              aget_amodify_ne _ _ _ _ hwz, hnw]
            rfl
          · exact hprevw
    · intro j m hj hm
      rw [aget_aremove_ne _ _ _ hj]
      by_cases hjw : j = w
      · subst hjw
        rw [aget_amodify_self, aget_amodify_ne _ _ _ _ hj, hm]
        exact ⟨_, rfl, rfl⟩
      · rw [aget_amodify_ne _ _ _ _ hjw, aget_amodify_ne _ _ _ _ hj, hm]
        exact ⟨m, rfl, rfl⟩

theorem pop_front_empty {α : Type} (s : ListState α) (h : s.head = none) :
    pop_front s = .ok (none, s) := by
  simp [pop_front, h]

theorem pop_back_empty {α : Type} (s : ListState α) (h : s.tail = none) :
    pop_back s = .ok (none, s) := by
  simp [pop_back, h]

theorem chainInv_new {α : Type} : chainInv (new : ListState α) [] :=
  ⟨List.nodup_nil, by simp, List.Perm.nil, rfl, rfl, trivial⟩

/-- Every state reachable by the public operations satisfies the structural
invariant for some id chain. -/
theorem reachable_chainInv {α : Type} (s : ListState α) (h : Reachable s) :
    ∃ ids, chainInv s ids := by
  induction h with
  | base => exact ⟨[], chainInv_new⟩
  | pushFront s x _ ih =>
    obtain ⟨ids, hinv⟩ := ih
    exact ⟨s.nextId :: ids, (chainInv_push_front s x ids hinv).1⟩
  | pushBack s x _ ih =>
    obtain ⟨ids, hinv⟩ := ih
    exact ⟨ids ++ [s.nextId], (chainInv_push_back s x ids hinv).1⟩
  | popFront s v s' _ hpop ih =>
    obtain ⟨ids, hinv⟩ := ih
    cases ids with
    | nil =>
      have hh : s.head = none := by
        have := hinv.2.2.2.1
        simpa using this
      rw [pop_front_empty s hh] at hpop
      injection hpop with hp
      injection hp with hv hs
      exact ⟨[], hs ▸ hinv⟩
    | cons a t =>
      obtain ⟨n, s'', -, hpop', hinv', -, -⟩ := chainInv_pop_front s a t hinv
      rw [hpop'] at hpop
      injection hpop with hp
      injection hp with hv hs
      exact ⟨t, hs ▸ hinv'⟩
  | popBack s v s' _ hpop ih =>
    obtain ⟨ids, hinv⟩ := ih
    by_cases hids : ids = []
    · subst hids
      have hh : s.tail = none := by
        have := hinv.2.2.2.2.1
        simpa using this
      rw [pop_back_empty s hh] at hpop
      injection hpop with hp
      injection hp with hv hs
      exact ⟨[], hs ▸ hinv⟩
    · have hgl : ∃ w, ids.getLast? = some w := by
        rw [List.getLast?_eq_getLast_of_ne_nil hids]
        exact ⟨_, rfl⟩
      obtain ⟨w, hglw⟩ := hgl
      have hidsm : ids.dropLast ++ [w] = ids := List.dropLast_append_getLast? w hglw
      rw [← hidsm] at hinv
      obtain ⟨n, s'', -, hpop', hinv', -, -⟩ := chainInv_pop_back s w ids.dropLast hinv
      rw [hpop'] at hpop
      injection hpop with hp
      injection hp with hv hs
      exact ⟨ids.dropLast, hs ▸ hinv'⟩

/-- The two walks of a well-formed list: head-to-tail via `next` lists the
chain, tail-to-head via `prev` lists it in reverse. -/
theorem chainInv_walks {α : Type} (s : ListState α) (ids : List Nat)
    (h : chainInv s ids) :
    walkBy s.heap Node.next ids.length s.head = ids ∧
    walkBy s.heap Node.prev ids.length s.tail = ids.reverse := by
  obtain ⟨hnd, hbound, hperm, hhead, htail, hchain⟩ := h
  constructor
  · rw [hhead]
    exact walkBy_eq s.heap Node.next Node.prev ids none hchain ids.length le_rfl
  · have hrev := chainSeg_reverse s.heap Node.next Node.prev ids none none hchain
    have hht : ids.getLast? = ids.reverse.head? := by
      rw [← List.getLast?_reverse ids.reverse, List.reverse_reverse]
    rw [htail, hht]
    have hw := walkBy_eq s.heap Node.prev Node.next ids.reverse none hrev
      ids.reverse.length le_rfl
    rw [List.length_reverse] at hw
    exact hw

theorem elems_eq_elemsAt {α : Type} (s : ListState α) (ids : List Nat)
    (h : chainInv s ids) : elems s = elemsAt s.heap ids := by
  obtain ⟨hnd, hbound, hperm, hhead, htail, hchain⟩ := h
  have hlen : ids.length ≤ s.heap.length := by
    rw [← length_keysOf]
    exact Nat.le_of_eq hperm.length_eq.symm
  unfold elems
  rw [hhead, walkBy_eq s.heap Node.next Node.prev ids none hchain s.heap.length hlen]

theorem elemsAt_congr {α : Type} (h h' : Heap α) (ids : List Nat)
    (hc : ∀ i ∈ ids,
      (aget h' i).map (fun n => n.elem) = (aget h i).map (fun n => n.elem)) :
    elemsAt h' ids = elemsAt h ids := by
  induction ids with
  | nil => rfl
  | cons a t ih =>
    have hca := hc a (List.mem_cons_self a t)
    have iht : elemsAt h' t = elemsAt h t :=
      ih (fun i hi => hc i (List.mem_cons_of_mem a hi))
    unfold elemsAt at iht ⊢
    rw [List.filterMap_cons, List.filterMap_cons, hca, iht]

/-! ## Claim theorems -/

/-- C1: starting from an empty list, after `push_front(1)`, `push_front(2)`,
`push_front(3)`, `pop_front()` returns `Some(3)`, the next `pop_front()`
returns `Some(2)`, then after `push_front(4)` the subsequent `pop_front()`
calls return `Some(4)`, then `Some(1)`, and then `None` — and no call
faults. -/
theorem c1_push_front_pop_front_order :
    scenario1 = .ok [some 3, some 2, some 4, some 1, none] := by
  rfl

/-- C2: every state reachable from the empty list by `push_front`,
`push_back`, `pop_front`, `pop_back` satisfies the structural invariants:
there is a chain of distinct node ids for which the store, head and tail
links and all `next`/`prev` fields agree (`chainInv`, whose `chainSeg`
component states that adjacent nodes agree bidirectionally and that the head
`prev` and tail `next` are absent); an empty store forces both links absent;
and walking head-to-tail via `next` visits exactly the chain while walking
tail-to-head via `prev` visits it in reverse. -/
theorem c2_reachable_invariant {α : Type} (s : ListState α) (h : Reachable s) :
    ∃ ids, chainInv s ids ∧
      (s.heap = [] → s.head = none ∧ s.tail = none) ∧
      walkBy s.heap Node.next ids.length s.head = ids ∧
      walkBy s.heap Node.prev ids.length s.tail = ids.reverse := by
  obtain ⟨ids, hinv⟩ := reachable_chainInv s h
  have hw := chainInv_walks s ids hinv
  refine ⟨ids, hinv, ?_, hw.1, hw.2⟩
  intro hheap
  obtain ⟨-, -, hperm, hhead, htail, -⟩ := hinv
  have hids : ids = [] := by
    rw [hheap] at hperm
    exact (List.perm_nil.mp hperm.symm)
  subst hids
  exact ⟨by rw [hhead]; rfl, by rw [htail]; rfl⟩

/-- C2 witness: the invariant at the concrete reachable state obtained by one
`push_front` on the empty list. -/
theorem c2_reachable_invariant_witness :
    ∃ ids, chainInv (push_front (new : ListState Int) 5) ids ∧
      ((push_front (new : ListState Int) 5).heap = [] →
        (push_front (new : ListState Int) 5).head = none ∧
        (push_front (new : ListState Int) 5).tail = none) ∧
      walkBy (push_front (new : ListState Int) 5).heap Node.next ids.length
        (push_front (new : ListState Int) 5).head = ids ∧
      walkBy (push_front (new : ListState Int) 5).heap Node.prev ids.length
        (push_front (new : ListState Int) 5).tail = ids.reverse :=
  c2_reachable_invariant _ (Reachable.pushFront _ 5 Reachable.base)

/-- C3: on any reachable state, `pop_front` and `pop_back` never fault: the
dangling-link lookups succeed and the `Rc::try_unwrap(..).ok().unwrap()`
extraction (modelled by the `refCount .. = 0` test, i.e. the local binding is
the only remaining strong reference) always takes the `.ok` branch. -/
theorem c3_pop_never_faults {α : Type} (s : ListState α) (h : Reachable s) :
    (∃ r, pop_front s = .ok r) ∧ (∃ r, pop_back s = .ok r) := by
  obtain ⟨ids, hinv⟩ := reachable_chainInv s h
  constructor
  · cases ids with
    | nil =>
      refine ⟨(none, s), pop_front_empty s ?_⟩
      have := hinv.2.2.2.1
      simpa using this
    | cons a t =>
      obtain ⟨n, s', -, hpop, -, -, -⟩ := chainInv_pop_front s a t hinv
      exact ⟨_, hpop⟩
  · by_cases hids : ids = []
    · subst hids
      refine ⟨(none, s), pop_back_empty s ?_⟩
      have := hinv.2.2.2.2.1
      simpa using this
    · obtain ⟨w, hglw⟩ : ∃ w, ids.getLast? = some w := by
        rw [List.getLast?_eq_getLast_of_ne_nil hids]
        exact ⟨_, rfl⟩
      rw [← List.dropLast_append_getLast? w hglw] at hinv
      obtain ⟨n, s', -, hpop, -, -, -⟩ := chainInv_pop_back s w ids.dropLast hinv
      exact ⟨_, hpop⟩

/-- C3 witness: at the concrete reachable three-element state `s123`. -/
theorem c3_pop_never_faults_witness :
    (∃ r, pop_front s123 = .ok r) ∧ (∃ r, pop_back s123 = .ok r) :=
  c3_pop_never_faults s123
    (Reachable.pushFront _ 3 (Reachable.pushFront _ 2
      (Reachable.pushFront _ 1 Reachable.base)))

/-- C4: the consuming iterator's forward step is exactly one `pop_front` on
the underlying list and its backward step exactly one `pop_back`; in
particular after `push_front(1)`, `push_front(2)`, `push_front(3)`,
alternating `next()`/`next_back()` yields 3, 1, 2 and then `None` from both
ends. -/
theorem c4_into_iter_refines_pops {α : Type} :
    (∀ it : IntoIter α,
      it.next = (pop_front it.list).map (fun r => (r.1, IntoIter.mk r.2)) ∧
      it.next_back = (pop_back it.list).map (fun r => (r.1, IntoIter.mk r.2))) ∧
    scenario4 = .ok [some 3, some 1, some 2, none, none] :=
  ⟨fun _ => ⟨rfl, rfl⟩, by rfl⟩

/-- C5: `pop_front` and `pop_back` on the empty list return `None` without a
fault and leave the state unchanged (hence still empty), so any number of
such pops yields `None` every time. -/
theorem c5_pop_empty_none {α : Type} (s : ListState α)
    (h : s.head = none ∧ s.tail = none) :
    pop_front s = .ok (none, s) ∧ pop_back s = .ok (none, s) :=
  ⟨pop_front_empty s h.1, pop_back_empty s h.2⟩

/-- C5 witness: at the empty list `new`. -/
theorem c5_pop_empty_none_witness :
    pop_front (new : ListState Int) = .ok (none, new) ∧
    pop_back (new : ListState Int) = .ok (none, new) :=
  c5_pop_empty_none new ⟨rfl, rfl⟩

/-- C6: after `push_front(1)`, `push_front(2)`, `push_front(3)`,
`peek_front()` views 3; writing 42 through the `peek_front_mut()` view and
then `pop_front()` returns `Some(42)`; and all four peeks on an empty list
return `None`. -/
theorem c6_peek_views :
    peek_front s123 = some 3 ∧
    (pop_front (write_front s123 42)).map (fun r => r.1) = .ok (some 42) ∧
    peek_front (new : ListState Int) = none ∧
    peek_back (new : ListState Int) = none ∧
    peek_front_mut (new : ListState Int) = none ∧
    peek_back_mut (new : ListState Int) = none :=
  ⟨rfl, by rfl, rfl, rfl, rfl, rfl⟩

/-- C7: teardown (`Drop for List`, the loop `while pop_front().is_some()`)
of a list whose chain has length `N` performs exactly `N` successful pops and
reaches the empty state with every node released, for any fuel of at least
`N` iterations — the iterative loop terminates after exactly `N` pops
regardless of how much larger the fuel is. -/
theorem c7_drop_pops_all {α : Type} (s : ListState α) (ids : List Nat)
    (h : chainInv s ids) :
    ∀ fuel, ids.length ≤ fuel →
      ∃ s', dropPops fuel s = (ids.length, s') ∧
        s'.heap = [] ∧ s'.head = none ∧ s'.tail = none := by
  induction ids generalizing s with
  | nil =>
    intro fuel _
    obtain ⟨-, -, hperm, hhead, htail, -⟩ := h
    have hkeys : keysOf s.heap = [] := hperm.eq_nil
    have hheap : s.heap = [] := by
      cases hh : s.heap with
      | nil => rfl
      | cons p t =>
        obtain ⟨j, n⟩ := p
        rw [hh, keysOf_cons] at hkeys
        simp at hkeys
    have hh : s.head = none := by rw [hhead]; rfl
    have ht : s.tail = none := by rw [htail]; rfl
    cases fuel with
    | zero => exact ⟨s, rfl, hheap, hh, ht⟩
    | succ k =>
      refine ⟨s, ?_, hheap, hh, ht⟩
      simp [dropPops, pop_front_empty s hh]
  | cons a t ih =>
    intro fuel hf
    obtain ⟨n, s', -, hpop, hinv', -, -⟩ := chainInv_pop_front s a t h
    cases fuel with
    | zero => simp at hf
    | succ k =>
      obtain ⟨s'', hdrop, h1, h2, h3⟩ := ih s' hinv' k (Nat.le_of_succ_le_succ hf)
      refine ⟨s'', ?_, h1, h2, h3⟩
      simp [dropPops, hpop, hdrop]

/-- C7 witness: tearing down the concrete three-element list `s123` takes
exactly three pops and empties it. -/
theorem c7_drop_pops_all_witness :
    ∃ s', dropPops 5 s123 = (3, s') ∧
      s'.heap = [] ∧ s'.head = none ∧ s'.tail = none :=
  c7_drop_pops_all s123 [2, 1, 0] (by decide) 5 (by decide)

/-- C9: pushing `x` at the front of any well-formed list and then popping the
front returns `Some x` and restores the original element sequence;
symmetrically for `push_back` followed by `pop_back`. -/
theorem c9_push_pop_roundtrip {α : Type} (s : ListState α) (ids : List Nat)
    (x : α) (h : chainInv s ids) :
    (∃ s', pop_front (push_front s x) = .ok (some x, s') ∧ elems s' = elems s) ∧
    (∃ s', pop_back (push_back s x) = .ok (some x, s') ∧ elems s' = elems s) := by
  have hboundS : ∀ i ∈ ids, i < s.nextId := h.2.1
  have hmemS : ∀ j, j ∈ keysOf s.heap ↔ j ∈ ids := fun j => h.2.2.1.mem_iff
  constructor
  · obtain ⟨hinvp, hnode, hframep⟩ := chainInv_push_front s x ids h
    obtain ⟨n, s', hn, hpop, hinv', -, hframe'⟩ :=
      chainInv_pop_front (push_front s x) s.nextId ids hinvp
    have hne : n.elem = x := by
      rw [hnode] at hn
      rw [← Option.some_injective _ hn]
    rw [hne] at hpop
    refine ⟨s', hpop, ?_⟩
    rw [elems_eq_elemsAt s' ids hinv', elems_eq_elemsAt s ids h]
    apply elemsAt_congr
    intro i hi
    obtain ⟨m, hm⟩ := exists_aget_of_mem_keysOf s.heap i ((hmemS i).mpr hi)
    obtain ⟨m₁, hm₁, hm₁e⟩ := hframep i m hi hm
    obtain ⟨m₂, hm₂, hm₂e⟩ :=
      hframe' i m₁ (Nat.ne_of_lt (hboundS i hi)) hm₁
    rw [hm, hm₂]
    simp [hm₂e, hm₁e]
  · obtain ⟨hinvp, hnode, hframep⟩ := chainInv_push_back s x ids h
    obtain ⟨n, s', hn, hpop, hinv', -, hframe'⟩ :=
      chainInv_pop_back (push_back s x) s.nextId ids hinvp
    have hne : n.elem = x := by
      rw [hnode] at hn
      rw [← Option.some_injective _ hn]
    rw [hne] at hpop
    refine ⟨s', hpop, ?_⟩
    rw [elems_eq_elemsAt s' ids hinv', elems_eq_elemsAt s ids h]
    apply elemsAt_congr
    intro i hi
    obtain ⟨m, hm⟩ := exists_aget_of_mem_keysOf s.heap i ((hmemS i).mpr hi)
    obtain ⟨m₁, hm₁, hm₁e⟩ := hframep i m hi hm
    obtain ⟨m₂, hm₂, hm₂e⟩ :=
      hframe' i m₁ (Nat.ne_of_lt (hboundS i hi)) hm₁
    rw [hm, hm₂]
    simp [hm₂e, hm₁e]

/-- C9 witness: at the concrete three-element list `s123` with `x = 7`. -/
theorem c9_push_pop_roundtrip_witness :
    (∃ s', pop_front (push_front s123 7) = .ok (some 7, s') ∧
      elems s' = elems s123) ∧
    (∃ s', pop_back (push_back s123 7) = .ok (some 7, s') ∧
      elems s' = elems s123) :=
  c9_push_pop_roundtrip s123 [2, 1, 0] 7 (by decide)

/-- C8: while an exclusive (`RefMut`) view of a node's element is
outstanding (its `RefCell` flag is `writing`), every attempt to obtain
another view of that node's element through the four peek accessors — shared
or exclusive — is detected at the violating call and aborts with a fault
(`.error ()`, the `RefCell` borrow panic), which is distinct from the
ordinary `.ok none` result that the same accessors return on an empty
list. -/
theorem c8_outstanding_mut_borrow_faults {α : Type} (s : CellState α) (i : Nat)
    (n : CellNode α) (hhead : s.head = some i) (htail : s.tail = some i)
    (hget : aget s.heap i = some n) (hflag : n.flag = BorrowFlag.writing) :
    peek_front_chk s = .error () ∧
    peek_back_chk s = .error () ∧
    peek_front_mut_chk s = .error () ∧
    peek_back_mut_chk s = .error () ∧
    (∀ s0 : CellState α, s0.head = none →
      peek_front_chk s0 = .ok none ∧ peek_front_mut_chk s0 = .ok none) ∧
    (∀ s0 : CellState α, s0.tail = none →
      peek_back_chk s0 = .ok none ∧ peek_back_mut_chk s0 = .ok none) ∧
    (Except.error () ≠ (Except.ok none : Except Unit (Option (α × CellState α)))) := by
  refine ⟨?_, ?_, ?_, ?_, ?_, ?_, by simp⟩
  · simp [peek_front_chk, hhead, hget, hflag, tryBorrow]
  · simp [peek_back_chk, htail, hget, hflag, tryBorrow]
  · simp [peek_front_mut_chk, hhead, hget, hflag, tryBorrowMut]
  · simp [peek_back_mut_chk, htail, hget, hflag, tryBorrowMut]
  · intro s0 h0
    exact ⟨by simp [peek_front_chk, h0], by simp [peek_front_mut_chk, h0]⟩
  · intro s0 h0
    exact ⟨by simp [peek_back_chk, h0], by simp [peek_back_mut_chk, h0]⟩

/-- C8 witness: at the concrete one-node state `sW` with an outstanding
exclusive borrow. -/
theorem c8_outstanding_mut_borrow_faults_witness :
    peek_front_chk sW = .error () ∧
    peek_back_chk sW = .error () ∧
    peek_front_mut_chk sW = .error () ∧
    peek_back_mut_chk sW = .error () ∧
    (∀ s0 : CellState Int, s0.head = none →
      peek_front_chk s0 = .ok none ∧ peek_front_mut_chk s0 = .ok none) ∧
    (∀ s0 : CellState Int, s0.tail = none →
      peek_back_chk s0 = .ok none ∧ peek_back_mut_chk s0 = .ok none) ∧
    (Except.error () ≠ (Except.ok none : Except Unit (Option (Int × CellState Int)))) :=
  c8_outstanding_mut_borrow_faults sW 0
    { flag := BorrowFlag.writing, elem := 1, next := none, prev := none }
    rfl rfl rfl rfl

/-- C10: `peek_front`/`peek_back` take the list by shared borrow and return
the list unchanged; `peek_front_mut`/`peek_back_mut` writes (`write_front`/
`write_back`) change at most the element value of the head (resp. tail)
node: the head, tail and allocator fields, the set of nodes, every `next`
and `prev` link, and every other node are unchanged, and the head (resp.
tail) node keeps its links with only its element replaced. -/
theorem c10_peek_frame {α : Type} (s : ListState α) (v : α) :
    (peek_front_st s).2 = s ∧
    (peek_back_st s).2 = s ∧
    (write_front s v).head = s.head ∧
    (write_front s v).tail = s.tail ∧
    (write_front s v).nextId = s.nextId ∧
    keysOf (write_front s v).heap = keysOf s.heap ∧
    (∀ j, (aget (write_front s v).heap j).map Node.next =
        (aget s.heap j).map Node.next ∧
      (aget (write_front s v).heap j).map Node.prev =
        (aget s.heap j).map Node.prev) ∧
    (∀ i j, s.head = some i → j ≠ i →
      aget (write_front s v).heap j = aget s.heap j) ∧
    (∀ i n, s.head = some i → aget s.heap i = some n →
      aget (write_front s v).heap i = some { n with elem := v }) ∧
    (write_back s v).head = s.head ∧
    (write_back s v).tail = s.tail ∧
    (write_back s v).nextId = s.nextId ∧
    keysOf (write_back s v).heap = keysOf s.heap ∧
    (∀ j, (aget (write_back s v).heap j).map Node.next =
        (aget s.heap j).map Node.next ∧
      (aget (write_back s v).heap j).map Node.prev =
        (aget s.heap j).map Node.prev) ∧
    (∀ i j, s.tail = some i → j ≠ i →
      aget (write_back s v).heap j = aget s.heap j) ∧
    (∀ i n, s.tail = some i → aget s.heap i = some n →
      aget (write_back s v).heap i = some { n with elem := v }) := by
  refine ⟨rfl, rfl, ?_, ?_, ?_, ?_, ?_, ?_, ?_, ?_, ?_, ?_, ?_, ?_, ?_, ?_⟩
  · cases hh : s.head <;> simp [write_front, hh]
  · cases hh : s.head <;> simp [write_front, hh]
  · cases hh : s.head <;> simp [write_front, hh]
  · cases hh : s.head <;> simp [write_front, hh, keysOf_amodify]
  · intro j
    cases hh : s.head with
    | none => simp [write_front, hh]
    | some i =>
      by_cases hji : j = i
      · subst hji
        simp only [write_front, hh]
        rw [aget_amodify_self]
        cases aget s.heap j <;> simp
      · simp only [write_front, hh]
        rw [aget_amodify_ne _ _ _ _ hji]
        exact ⟨rfl, rfl⟩
  · intro i j hhead hne
    simp only [write_front, hhead]
    exact aget_amodify_ne _ _ _ _ hne
  · intro i n hhead hn
    simp only [write_front, hhead]
    rw [aget_amodify_self, hn]
    rfl
  · cases hh : s.tail <;> simp [write_back, hh]
  · cases hh : s.tail <;> simp [write_back, hh]
  · cases hh : s.tail <;> simp [write_back, hh]
  · cases hh : s.tail <;> simp [write_back, hh, keysOf_amodify]
  · intro j
    cases hh : s.tail with
    | none => simp [write_back, hh]
    | some i =>
      by_cases hji : j = i
      · subst hji
        simp only [write_back, hh]
        rw [aget_amodify_self]
        cases aget s.heap j <;> simp
      · simp only [write_back, hh]
        rw [aget_amodify_ne _ _ _ _ hji]
        exact ⟨rfl, rfl⟩
  · intro i j htail hne
    simp only [write_back, htail]
    exact aget_amodify_ne _ _ _ _ hne
  · intro i n htail hn
    simp only [write_back, htail]
    rw [aget_amodify_self, hn]
    rfl

/-- C10 witness: at the concrete list `s123`, writing 9 through the mutable
front view leaves node 0 untouched and replaces only the element of the head
node 2. -/
theorem c10_peek_frame_witness :
    aget (write_front s123 (9 : Int)).heap 0 = aget s123.heap 0 ∧
    aget (write_front s123 (9 : Int)).heap 2 =
      some { elem := (9 : Int), next := some 1, prev := none } :=
  ⟨(c10_peek_frame s123 9).2.2.2.2.2.2.2.1 2 0 rfl (by decide),
   (c10_peek_frame s123 9).2.2.2.2.2.2.2.2.1 2
     { elem := (3 : Int), next := some 1, prev := none } rfl rfl⟩

end Fourth
